import Mathlib

/-!
Shallow embedding of the portfolio-topic-segmentation repository
(src/simple_ffnn_trainer.py and src/amazon_review_binary_classification.py)
together with theorems settling the frozen claims about it.

Python floats are modelled as rationals, Python exceptions as an explicit
error type returned through Except, and the one accumulator whose dynamic
type matters (the evaluate loop mixes a float with a bound-method
reference) as a small dynamic-value type.  The model, criterion and
optimizer are duck-typed in the source and are therefore taken as injected
capabilities: a loss function on parameters and a batch, and a parameter
update applied once per optimizer step.
-/

/-- Python exceptions the modelled code can raise.  EmptyLoaderError is the
name the specification uses for an empty-loader failure; the source never
defines or raises it, and the constructor exists only so that claims naming
it can be stated and compared against what the code actually raises. -/
inductive PyErr where
  | typeError
  | zeroDivisionError
  | indexError
  | emptyLoaderError
deriving DecidableEq

/-- A Python dynamic value as it appears in the evaluate accumulator of
SimpleFFNNTrainer.evaluate: either a float (a rational here) or a
bound-method reference, such as the unevaluated attribute loss.item. -/
inductive PyVal where
  | float (q : ℚ)
  | methodRef
deriving DecidableEq

/-- Python addition on the dynamic accumulator: float + float adds their
values; adding a bound-method reference to a float raises TypeError. -/
def pyAdd : PyVal → PyVal → Except PyErr PyVal
  | .float a, .float b => .ok (.float (a + b))
  | _, _ => .error .typeError

/-- Python division of the accumulator by an integer length, as in
val_loss / len(val_loader): raises ZeroDivisionError when the length is
zero, TypeError when the accumulator is still a method reference. -/
def pyDivLen : PyVal → ℕ → Except PyErr ℚ
  | .float a, n => if n = 0 then .error .zeroDivisionError else .ok (a / (n : ℚ))
  | .methodRef, _ => .error .typeError

/-- The state of the model as SimpleFFNNTrainer sees it: the learnable
parameters plus the training/evaluation mode flag toggled by model.train()
and model.eval(). -/
structure MState (P : Type) where
  params : P
  training : Bool

variable {P B : Type}

/-- The loop body of SimpleFFNNTrainer.evaluate over the batches of
val_loader: compute outputs and the loss at the current parameters, then
execute val_loss += loss.item.  The source writes loss.item without
parentheses, so what is added to the float accumulator is the bound-method
reference, modelled by pyAdd applied to PyVal.methodRef. -/
def evalLoop (lossOf : P → B → ℚ) (p : P) : List B → PyVal → Except PyErr PyVal
  | [], acc => .ok acc
  | b :: bs, acc =>
    let _loss := lossOf p b
    match pyAdd acc .methodRef with
    | .ok acc2 => evalLoop lossOf p bs acc2
    | .error e => .error e

/-- SimpleFFNNTrainer.evaluate: put the model in evaluation mode (no
gradient tracking is active and no parameter is written), run the loop over
all batches starting from the float accumulator 0.0, then divide by
len(val_loader).  Returns the model state after the call together with the
result, a mean loss or a raised exception. -/
def evaluate (lossOf : P → B → ℚ) (m : MState P) (batches : List B) :
    MState P × Except PyErr ℚ :=
  let m2 : MState P := ⟨m.params, false⟩
  let r : Except PyErr ℚ :=
    match evalLoop lossOf m2.params batches (.float 0) with
    | .ok acc => pyDivLen acc batches.length
    | .error e => .error e
  (m2, r)

/-- The console output of SimpleFFNNTrainer.train and evaluate, as a list
of events: the opening and closing banner, a per-step line printed when
batch_idx % log_interval == 0, the per-epoch average-loss summary line, and
the validation-loss line. -/
inductive Ev where
  | banner
  | stepLog (epoch idx : ℕ) (loss : ℚ)
  | epochSummary (epoch : ℕ) (avg : ℚ)
  | valLog (epoch : ℕ) (v : ℚ)
  | endBanner
deriving DecidableEq

/-- Recognizes a per-epoch average-loss summary line. -/
def Ev.isSummary : Ev → Bool
  | .epochSummary _ _ => true
  | _ => false

/-- Recognizes a per-step log line. -/
def Ev.isStepLog : Ev → Bool
  | .stepLog _ _ _ => true
  | _ => false

/-- The inner loop of SimpleFFNNTrainer.train over the training batches of
one epoch, carried index first-to-last as enumerate yields it: zero the
gradients, compute outputs and the loss at the current parameters, run the
backward pass and one optimizer step (together the injected parameter
update), accumulate running_loss += loss.item() — invoked here, unlike in
evaluate — and print a step line when batch_idx % log_interval == 0.  In
Python batch_idx % log_interval itself raises ZeroDivisionError when
log_interval is 0, which the model preserves. -/
def trainBatchesGo (optStep : P → B → P) (lossOf : P → B → ℚ) (li ep : ℕ) :
    List B → ℕ → P → ℚ → Except PyErr (P × ℚ × List Ev)
  | [], _, p, r => .ok (p, r, [])
  | b :: bs, idx, p, r =>
    if li = 0 then .error .zeroDivisionError
    else
      let loss := lossOf p b
      let p2 := optStep p b
      let here : List Ev := if idx % li = 0 then [Ev.stepLog ep idx loss] else []
      match trainBatchesGo optStep lossOf li ep bs (idx + 1) p2 (r + loss) with
      | .ok (pf, rf, evs) => .ok (pf, rf, here ++ evs)
      | .error e => .error e

/-- The epoch loop of SimpleFFNNTrainer.train, epoch counted down with the
current epoch index carried: set mode=training, run the batch loop from
index 0 with running_loss 0.0, print the epoch average-loss summary
(raising ZeroDivisionError on an empty loader), and when a validation
loader is given run evaluate on it and print the validation loss, any
exception propagating and aborting the remaining epochs. -/
def trainEpochsGo (optStep : P → B → P) (lossOf : P → B → ℚ) (li : ℕ)
    (tl : List B) (vl : Option (List B)) :
    ℕ → ℕ → MState P → Except PyErr (MState P × List Ev)
  | 0, _, m => .ok (m, [])
  | n + 1, ep, m =>
    match trainBatchesGo optStep lossOf li ep tl 0 m.params 0 with
    | .error e => .error e
    | .ok (p2, running, evs) =>
      if tl.length = 0 then .error .zeroDivisionError
      else
        let avg : ℚ := running / (tl.length : ℚ)
        let m2 : MState P := ⟨p2, true⟩
        match vl with
        | none =>
          match trainEpochsGo optStep lossOf li tl vl n (ep + 1) m2 with
          | .error e => .error e
          | .ok (mf, evsf) =>
            .ok (mf, evs ++ [Ev.epochSummary ep avg] ++ evsf)
        | some vbs =>
          let m3 := (evaluate lossOf m2 vbs).1
          match (evaluate lossOf m2 vbs).2 with
          | .error e => .error e
          | .ok v =>
            match trainEpochsGo optStep lossOf li tl vl n (ep + 1) m3 with
            | .error e => .error e
            | .ok (mf, evsf) =>
              .ok (mf, evs ++ [Ev.epochSummary ep avg] ++ [Ev.valLog ep v] ++ evsf)

/-- SimpleFFNNTrainer.train: print the opening banner, run the epoch loop
for the requested number of epochs starting at epoch 0, print the closing
banner.  There is no early stopping: the loop is a plain range over
epochs. -/
def train (optStep : P → B → P) (lossOf : P → B → ℚ) (tl : List B)
    (vl : Option (List B)) (epochs li : ℕ) (m : MState P) :
    Except PyErr (MState P × List Ev) :=
  match trainEpochsGo optStep lossOf li tl vl epochs 0 m with
  | .error e => .error e
  | .ok (mf, evs) => .ok (mf, Ev.banner :: evs ++ [Ev.endBanner])

/-- The losses computed along one epoch: the loss of each batch at the
parameters as they stand when that batch is reached. -/
def batchLosses (optStep : P → B → P) (lossOf : P → B → ℚ) : P → List B → List ℚ
  | _, [] => []
  | p, b :: bs => lossOf p b :: batchLosses optStep lossOf (optStep p b) bs

/-- How many of the indices s, s+1, ..., s+n-1 are multiples of the log
interval li, i.e. how many step lines one epoch of n batches prints
starting at index s. -/
def logCount (li : ℕ) : ℕ → ℕ → ℕ
  | _, 0 => 0
  | s, n + 1 => (if s % li = 0 then 1 else 0) + logCount li (s + 1) n

/-- The step-line events of one epoch of train, starting at batch index
idx with parameters p. -/
def epochStepEvs (optStep : P → B → P) (lossOf : P → B → ℚ) (li ep : ℕ) :
    List B → ℕ → P → List Ev
  | [], _, _ => []
  | b :: bs, idx, p =>
    (if idx % li = 0 then [Ev.stepLog ep idx (lossOf p b)] else []) ++
      epochStepEvs optStep lossOf li ep bs (idx + 1) (optStep p b)

/-- The full event list train produces over n epochs with no validation
loader, starting at epoch ep with parameters p. -/
def epochsEvs (optStep : P → B → P) (lossOf : P → B → ℚ) (li : ℕ)
    (tl : List B) : ℕ → ℕ → P → List Ev
  | 0, _, _ => []
  | n + 1, ep, p =>
    epochStepEvs optStep lossOf li ep tl 0 p ++
      [Ev.epochSummary ep ((batchLosses optStep lossOf p tl).sum / (tl.length : ℚ))] ++
      epochsEvs optStep lossOf li tl n (ep + 1) (tl.foldl optStep p)

variable {α β : Type}

/-- The CustomDataset of the script: the constructor only stores the two
parallel arrays, performing no length check of any kind. -/
structure CustomDataset (α β : Type) where
  inputs : List α
  targets : List β

/-- The CustomDataset constructor call.  Its Python body is two plain
attribute assignments, so construction cannot raise; the Except return type
exists so that the claimed construction-time IndexError is statable. -/
def mkCustomDataset (inputs : List α) (targets : List β) :
    Except PyErr (CustomDataset α β) :=
  .ok ⟨inputs, targets⟩

/-- CustomDataset.__len__: the length of the inputs array only. -/
def lenD (ds : CustomDataset α β) : ℕ := ds.inputs.length

/-- CustomDataset.__getitem__: index both arrays; an index outside either
array raises IndexError at access time. -/
def getItem (ds : CustomDataset α β) (idx : ℕ) : Except PyErr (α × β) :=
  match ds.inputs[idx]?, ds.targets[idx]? with
  | some a, some b => .ok (a, b)
  | _, _ => .error .indexError

/-- One pass of the batch grouping a torch DataLoader with drop_last=False
performs over the (possibly permuted) item sequence: consecutive groups of
batch_size items, the final group keeping whatever remains.  The fuel
argument, instantiated with the list length, only drives the recursion. -/
def chunkListGo (bsz : ℕ) : ℕ → List α → List (List α)
  | 0, _ => []
  | _, [] => []
  | fuel + 1, a :: l => (a :: l.take (bsz - 1)) :: chunkListGo bsz fuel (l.drop (bsz - 1))

/-- The batches a DataLoader over a CustomDataset yields in one epoch, as
groups of the item sequence it iterates (when shuffle is true that sequence
is a fresh permutation of the items each epoch). -/
def chunkList (bsz : ℕ) (l : List α) : List (List α) := chunkListGo bsz l.length l

/-- The sizes of the successive batches over a sequence of the given
length: each batch takes min(batch_size, remaining) items. -/
def chunkSizesGo (bsz : ℕ) : ℕ → ℕ → List ℕ
  | 0, _ => []
  | _, 0 => []
  | fuel + 1, len + 1 => (1 + min (bsz - 1) len) :: chunkSizesGo bsz fuel (len - (bsz - 1))

/-- The batch-size profile of a dataset of the given length. -/
def chunkSizes (bsz len : ℕ) : List ℕ := chunkSizesGo bsz len len

/-- One row of the amazon_polarity dataset split: a review text and its
binary label. -/
structure Row where
  content : String
  label : ℤ

/-- The corpus state AmazonReviewBinaryClassification.load_data populates:
the texts, their labels, the embedding of each text, and the recorded
embedding width (corpus_embeddings.shape[1]). -/
structure PipelineState where
  corpus : List String
  corpus_labels : List ℤ
  corpus_embeddings : List (List ℚ)
  embed_size : ℕ

/-- The sample-cap step of load_data.  The source tests the cap for
truthiness — if self.n_samples_dataset: — so None and 0 both leave the
split untruncated, and only a strictly positive cap slices off the first
n_samples_dataset items. -/
def applyCap : Option ℕ → List Row → List Row
  | none, l => l
  | some n, l => if n = 0 then l else l.take n

/-- AmazonReviewBinaryClassification.load_data: fetch the split (passed in
here, dataset acquisition being an external collaborator), apply the sample
cap, shuffle with the fixed seed 42 — the seeded dataset shuffle is an
external deterministic reordering, passed in as the function shuffle42 —
then extract texts and labels and encode every text with the sentence
embedding model, another external collaborator passed as encode. -/
def loadData (shuffle42 : List Row → List Row) (encode : String → List ℚ)
    (cap : Option ℕ) (fetched : List Row) : PipelineState :=
  let shuffled := shuffle42 (applyCap cap fetched)
  let corpus := shuffled.map Row.content
  let embs := corpus.map encode
  ⟨corpus, shuffled.map Row.label, embs, (embs.headD []).length⟩

/-- The squared Euclidean distance between two vectors, the square of the
metric scipy.spatial.distance.cdist computes rowwise. -/
def dist2 (u v : List ℚ) : ℚ := (List.zipWith (fun a b => (a - b) ^ 2) u v).sum

/-- Whether a list of row indices is sorted by the distances d: each
adjacent pair of indices has nondecreasing distance values.  This is the
ordering guarantee of a sorted-order permutation, with no condition on how
tied values are arranged. -/
def isSortedIdx (d : List ℚ) : List ℕ → Bool
  | [] => true
  | [_] => true
  | a :: b :: l => decide (d.getD a 0 ≤ d.getD b 0) && isSortedIdx d (b :: l)

/-- The documented contract of np.argsort(d, axis=0): the result is some
permutation of the row indices 0..len(d)-1 arranged in nondecreasing order
of d.  The default kind is quicksort (introsort), which is not a stable
sort, so which of several indices with equal distance values comes first is
unspecified; the contract therefore says nothing about ties. -/
def isArgsortOf (d : List ℚ) (perm : List ℕ) : Bool :=
  perm.isPerm (List.range d.length) && isSortedIdx d perm

/-- The centers dictionary cluster_data builds: for each cluster center
produced by the KMeans fit (consumed as a black box and passed in here),
the head of np.argsort applied to the distances from that center to every
corpus embedding.  np.argsort itself is a library call consumed through its
contract only, so it is passed in as the function argsort, constrained by
isArgsortOf in the theorems.  Since the square root is strictly monotone,
sorting the squared distances dist2 arranges the indices exactly as sorting
the Euclidean distances cdist returns. -/
def clusterDataCenters (argsort : List ℚ → List ℕ)
    (rows centroids : List (List ℚ)) : List ℕ :=
  centroids.map (fun c => (argsort (rows.map (dist2 c))).headD 0)

/-- A concrete argsort satisfying the contract, used to instantiate the
theorems: insertion sort of the row indices by their distance values. -/
def argsortIns (d : List ℚ) : List ℕ :=
  List.insertionSort (fun a b => d.getD a 0 ≤ d.getD b 0) (List.range d.length)

/-- The payload of a torch tensor as the script builds one with
torch.tensor: a float matrix (the embeddings) or an integer vector (the
labels); torch.tensor preserves the numeric values. -/
inductive PyData where
  | mat (rows : List (List ℚ))
  | ivec (xs : List ℤ)
deriving DecidableEq

/-- A saved torch tensor. -/
structure Tensor where
  data : PyData
deriving DecidableEq

/-- AmazonReviewBinaryClassification.to_torch_tensor: torch.tensor on the
data, preserving its numeric values. -/
def to_torch_tensor (d : PyData) : Tensor := ⟨d⟩

/-- The files torch.save has written, most recent first. -/
def FileSys : Type := List (String × Tensor)

/-- torch.save: write the tensor to the file at the path, replacing any
previous content. -/
def torchSave (t : Tensor) (path : String) (fs : FileSys) : FileSys :=
  (path, t) :: fs

/-- Modelled from the spec: EmbeddingStore.load / torch.load, which no code
under src/ implements (save_data has no loading counterpart in the
repository).  Per the artifact contract it reads back the tensor most
recently saved at the path. -/
def torchLoad (path : String) : FileSys → Option Tensor
  | [] => none
  | (p, t) :: rest => if path = p then some t else torchLoad path rest

/-- AmazonReviewBinaryClassification.save_data: convert the corpus
embeddings to a tensor and save it at file_path + "_embeds.pt", then
convert the labels and save them at file_path + "_labels.pt". -/
def save_data (st : PipelineState) (file_path : String) (fs : FileSys) : FileSys :=
  let fs1 := torchSave (to_torch_tensor (.mat st.corpus_embeddings))
    (file_path ++ "_embeds.pt") fs
  torchSave (to_torch_tensor (.ivec st.corpus_labels))
    (file_path ++ "_labels.pt") fs1

theorem trainBatchesGo_eq (optStep : P → B → P) (lossOf : P → B → ℚ)
    (li ep : ℕ) (hli : li ≠ 0) (bs : List B) :
    ∀ (idx : ℕ) (p : P) (r : ℚ),
    trainBatchesGo optStep lossOf li ep bs idx p r =
      .ok (bs.foldl optStep p, r + (batchLosses optStep lossOf p bs).sum,
        epochStepEvs optStep lossOf li ep bs idx p) := by
  induction bs with
  | nil => intro idx p r; simp [trainBatchesGo, batchLosses, epochStepEvs]
  | cons b bs ih =>
    intro idx p r
    simp only [trainBatchesGo, hli, if_false, List.foldl_cons, batchLosses,
      epochStepEvs, List.sum_cons]
    rw [ih]
    simp [add_assoc]

theorem countP_epochStepEvs_summary (optStep : P → B → P) (lossOf : P → B → ℚ)
    (li ep : ℕ) (bs : List B) :
    ∀ (idx : ℕ) (p : P),
    (epochStepEvs optStep lossOf li ep bs idx p).countP Ev.isSummary = 0 := by
  induction bs with
  | nil => intro idx p; simp [epochStepEvs]
  | cons b bs ih =>
    intro idx p
    by_cases h : idx % li = 0 <;>
      simp [epochStepEvs, h, ih, List.countP_append, List.countP_cons, Ev.isSummary]

theorem countP_epochStepEvs_stepLog (optStep : P → B → P) (lossOf : P → B → ℚ)
    (li ep : ℕ) (bs : List B) :
    ∀ (idx : ℕ) (p : P),
    (epochStepEvs optStep lossOf li ep bs idx p).countP Ev.isStepLog =
      logCount li idx bs.length := by
  induction bs with
  | nil => intro idx p; simp [epochStepEvs, logCount]
  | cons b bs ih =>
    intro idx p
    by_cases h : idx % li = 0 <;>
      simp [epochStepEvs, h, ih, logCount, List.countP_append, List.countP_cons,
        Ev.isStepLog, Nat.add_comm]

theorem countP_epochsEvs_summary (optStep : P → B → P) (lossOf : P → B → ℚ)
    (li : ℕ) (tl : List B) :
    ∀ (n ep : ℕ) (p : P),
    (epochsEvs optStep lossOf li tl n ep p).countP Ev.isSummary = n := by
  intro n
  induction n with
  | zero => intro ep p; simp [epochsEvs]
  | succ n ih =>
    intro ep p
    simp [epochsEvs, List.countP_append, List.countP_cons,
      countP_epochStepEvs_summary, ih, Ev.isSummary]

theorem countP_epochsEvs_stepLog (optStep : P → B → P) (lossOf : P → B → ℚ)
    (li : ℕ) (tl : List B) :
    ∀ (n ep : ℕ) (p : P),
    (epochsEvs optStep lossOf li tl n ep p).countP Ev.isStepLog =
      n * logCount li 0 tl.length := by
  intro n
  induction n with
  | zero => intro ep p; simp [epochsEvs]
  | succ n ih =>
    intro ep p
    simp [epochsEvs, List.countP_append, List.countP_cons,
      countP_epochStepEvs_stepLog, ih, Ev.isStepLog, Nat.succ_mul, Nat.add_comm]

theorem trainEpochsGo_none_eq (optStep : P → B → P) (lossOf : P → B → ℚ)
    (li : ℕ) (hli : li ≠ 0) (tl : List B) (htl : tl ≠ []) :
    ∀ (n ep : ℕ) (m : MState P),
    trainEpochsGo optStep lossOf li tl none n ep m =
      .ok (⟨(fun p => tl.foldl optStep p)^[n] m.params,
            if n = 0 then m.training else true⟩,
        epochsEvs optStep lossOf li tl n ep m.params) := by
  intro n
  induction n with
  | zero => intro ep m; simp [trainEpochsGo, epochsEvs]
  | succ n ih =>
    intro ep m
    have hL : tl.length ≠ 0 := fun h => htl (List.length_eq_zero.mp h)
    simp only [trainEpochsGo, trainBatchesGo_eq optStep lossOf li ep hli tl,
      hL, if_false, ih, epochsEvs, zero_add]
    rw [← Function.iterate_succ_apply]
    simp [List.append_assoc]

/-- C1: claimed, evaluate accumulates the numeric loss value of every batch
and returns the arithmetic mean.  In the source the accumulation reads
val_loss += loss.item, a bound-method reference rather than the invoked
value, so on every non-empty sequence of batches the very first addition
raises TypeError and no mean is ever returned: the code contradicts the
documented contract. -/
theorem evaluate_nonempty_raises_typeError (lossOf : P → B → ℚ) (m : MState P)
    (b : B) (bs : List B) :
    (evaluate lossOf m (b :: bs)).2 = .error .typeError := rfl

/-- C4 counterexample: on the empty batch list, evaluate reaches
val_loss / len(val_loader) with length 0 and raises the raw
ZeroDivisionError; it does not raise the EmptyLoaderError the claim
names. -/
theorem evaluate_empty_not_emptyLoaderError :
    (evaluate (fun (_ : Unit) (_ : Unit) => (1 : ℚ)) ⟨(), true⟩ ([] : List Unit)).2
        = .error .zeroDivisionError ∧
    (evaluate (fun (_ : Unit) (_ : Unit) => (1 : ℚ)) ⟨(), true⟩ ([] : List Unit)).2
        ≠ .error .emptyLoaderError := by
  refine ⟨rfl, ?_⟩
  intro h
  exact PyErr.noConfusion (Except.error.inj h)

/-- C4 (amended): evaluate on an empty sequence of batches surfaces the raw
division-by-zero fault of the mean computation, for every model and loss
function; it does not return a number (in particular not NaN). -/
theorem evaluate_empty_zero_division (lossOf : P → B → ℚ) (m : MState P) :
    (evaluate lossOf m ([] : List B)).2 = .error .zeroDivisionError := rfl

/-- C6: evaluate never writes the parameters — the state it returns carries
the unchanged parameters with the mode flag set to evaluation — and a
second call on the returned state over the same batches returns exactly the
same result as the first, so any average loss it yielded would be yielded
again. -/
theorem evaluate_frame_and_idempotent (lossOf : P → B → ℚ) (m : MState P)
    (bs : List B) :
    (evaluate lossOf m bs).1.params = m.params ∧
    (evaluate lossOf (evaluate lossOf m bs).1 bs).1.params = m.params ∧
    (evaluate lossOf (evaluate lossOf m bs).1 bs).2 = (evaluate lossOf m bs).2 :=
  ⟨rfl, rfl, rfl⟩

/-- C9: for every epochs count E >= 1 and every non-empty training loader
(with a positive log interval and no validation loader, as in the script),
train returns normally with exactly E epoch average-loss summary lines and
E * (number of batch indices divisible by the log interval) step lines, the
final parameters are the result of applying exactly one optimizer step per
batch in iteration order in each of the E epochs, the model is left in
training mode, and the first epoch logs the average of the accumulated
per-batch losses. -/
theorem train_runs_all_epochs (optStep : P → B → P) (lossOf : P → B → ℚ)
    (tl : List B) (E li : ℕ) (m : MState P)
    (htl : tl ≠ []) (hli : 0 < li) (hE : 1 ≤ E) :
    ∃ mf evs, train optStep lossOf tl none E li m = .ok (mf, evs) ∧
      mf.params = (fun p => tl.foldl optStep p)^[E] m.params ∧
      mf.training = true ∧
      evs.countP Ev.isSummary = E ∧
      evs.countP Ev.isStepLog = E * logCount li 0 tl.length ∧
      Ev.epochSummary 0
          ((batchLosses optStep lossOf m.params tl).sum / (tl.length : ℚ)) ∈ evs := by
  obtain ⟨E2, rfl⟩ : ∃ E2, E = E2 + 1 := ⟨E - 1, by omega⟩
  have h0 : li ≠ 0 := by omega
  refine ⟨⟨(fun p => tl.foldl optStep p)^[E2 + 1] m.params, true⟩,
    Ev.banner :: (epochsEvs optStep lossOf li tl (E2 + 1) 0 m.params ++ [Ev.endBanner]),
    ?_, rfl, rfl, ?_, ?_, ?_⟩
  · simp [train, trainEpochsGo_none_eq optStep lossOf li h0 tl htl]
  · simp [List.countP_cons, List.countP_append,
      countP_epochsEvs_summary, Ev.isSummary]
  · simp [List.countP_cons, List.countP_append,
      countP_epochsEvs_stepLog, Ev.isStepLog]
  · simp [epochsEvs, List.mem_append, List.mem_cons]

/-- C9 witness: a concrete run with parameters in the rationals, the step
adding the batch to the parameter, loss the product, two batches, two
epochs, and log interval one. -/
theorem train_runs_all_epochs_witness :
    ∃ mf evs,
      train (fun p b => p + b) (fun p b => p * b) [(1 : ℚ), 2] none 2 1
          ⟨0, false⟩ = .ok (mf, evs) ∧
      mf.params = (fun p => List.foldl (fun p b => p + b) p [(1 : ℚ), 2])^[2] (0 : ℚ) ∧
      mf.training = true ∧
      evs.countP Ev.isSummary = 2 ∧
      evs.countP Ev.isStepLog = 2 * logCount 1 0 ([(1 : ℚ), 2]).length ∧
      Ev.epochSummary 0
          ((batchLosses (fun p b => p + b) (fun p b => p * b) (0 : ℚ)
            [(1 : ℚ), 2]).sum / (([(1 : ℚ), 2]).length : ℚ)) ∈ evs :=
  train_runs_all_epochs (fun p b => p + b) (fun p b => p * b) [(1 : ℚ), 2] 2 1
    ⟨0, false⟩ (by decide) (by decide) (by decide)

/-- C5 counterexample: constructing a CustomDataset over inputs of length 2
and targets of length 1 succeeds — the constructor stores the mismatched
arrays without any check — and the IndexError only appears later, when
item 1 is accessed. -/
theorem customDataset_mk_no_check :
    mkCustomDataset [(0 : ℚ), 1] [(5 : ℚ)] = .ok ⟨[0, 1], [5]⟩ ∧
    getItem (⟨[(0 : ℚ), 1], [(5 : ℚ)]⟩ : CustomDataset ℚ ℚ) 1
        = .error .indexError :=
  ⟨rfl, rfl⟩

/-- C5 (amended): constructing a CustomDataset from arrays of differing
lengths always succeeds, and the length mismatch surfaces as an IndexError
only when an item at an index beyond the shorter (targets) array is
accessed. -/
theorem customDataset_error_deferred (inputs : List α) (targets : List β)
    (idx : ℕ) (h : targets.length ≤ idx) :
    mkCustomDataset inputs targets = .ok ⟨inputs, targets⟩ ∧
    getItem (⟨inputs, targets⟩ : CustomDataset α β) idx = .error .indexError := by
  refine ⟨rfl, ?_⟩
  have ht : targets[idx]? = none := List.getElem?_eq_none h
  cases hi : inputs[idx]? <;> simp [getItem, ht, hi]

/-- C5 witness: a concrete mismatched construction. -/
theorem customDataset_error_deferred_witness :
    mkCustomDataset [(0 : ℚ), 1] [(7 : ℚ)] = .ok ⟨[0, 1], [7]⟩ ∧
    getItem (⟨[(0 : ℚ), 1], [(7 : ℚ)]⟩ : CustomDataset ℚ ℚ) 1
        = .error .indexError :=
  customDataset_error_deferred [(0 : ℚ), 1] [(7 : ℚ)] 1 (by decide)

/-- C10: a sample cap of 0 behaves exactly like None — the truthiness test
if self.n_samples_dataset: skips the truncation — so load_data processes
the entire fetched split in both cases, while any strictly positive cap
truncates to the first n items before the shuffle. -/
theorem loadData_cap_truthiness (shuffle42 : List Row → List Row)
    (encode : String → List ℚ) (fetched : List Row) :
    loadData shuffle42 encode (some 0) fetched
        = loadData shuffle42 encode none fetched ∧
    (loadData shuffle42 encode none fetched).corpus
        = (shuffle42 fetched).map Row.content ∧
    ∀ n : ℕ, (loadData shuffle42 encode (some (n + 1)) fetched).corpus
        = (shuffle42 (fetched.take (n + 1))).map Row.content := by
  refine ⟨rfl, rfl, fun n => ?_⟩
  simp [loadData, applyCap]

/-- C2 counterexample: with a sample cap of 0, load_data does not truncate
to the first 0 items — on a two-row split the resulting corpus still holds
both texts instead of the empty corpus the claim demands. -/
theorem loadData_cap_zero_cex :
    (loadData id (fun _ => [(0 : ℚ)]) (some 0)
        [⟨"a", 0⟩, ⟨"b", 1⟩]).corpus = ["a", "b"] ∧
    (loadData id (fun _ => [(0 : ℚ)]) (some 0) [⟨"a", 0⟩, ⟨"b", 1⟩]).corpus
        ≠ (id ([(⟨"a", 0⟩ : Row), ⟨"b", 1⟩].take 0)).map Row.content := by
  refine ⟨rfl, ?_⟩
  simp [loadData, applyCap]

/-- C2 (amended): for every strictly positive sample cap n, load_data first
truncates the fetched split to its first n items and then shuffles with the
fixed-seed reordering, so the resulting order is a function of the input
alone; afterwards every text is encoded into a D-dimensional vector.  A cap
of 0 (like None) disables the truncation. -/
theorem loadData_positive_cap_spec (shuffle42 : List Row → List Row)
    (encode : String → List ℚ) (D n : ℕ) (fetched : List Row)
    (hD : ∀ s, (encode s).length = D) (hn : 0 < n) :
    (loadData shuffle42 encode (some n) fetched).corpus
        = (shuffle42 (fetched.take n)).map Row.content ∧
    (loadData shuffle42 encode (some n) fetched).corpus_labels
        = (shuffle42 (fetched.take n)).map Row.label ∧
    (loadData shuffle42 encode (some n) fetched).corpus_embeddings
        = ((loadData shuffle42 encode (some n) fetched).corpus).map encode ∧
    ∀ e ∈ (loadData shuffle42 encode (some n) fetched).corpus_embeddings,
        e.length = D := by
  have hn2 : ¬ n = 0 := by omega
  refine ⟨by simp [loadData, applyCap, hn2], by simp [loadData, applyCap, hn2],
    rfl, ?_⟩
  intro e he
  obtain ⟨s, _, rfl⟩ := List.mem_map.mp he
  exact hD s

/-- C2 witness: a concrete positive cap on a two-row split with a reversing
shuffle and a constant two-dimensional encoder. -/
theorem loadData_positive_cap_spec_witness :
    (loadData List.reverse (fun _ => [(0 : ℚ), 1]) (some 1)
        [⟨"a", 0⟩, ⟨"b", 1⟩]).corpus
        = (List.reverse ([(⟨"a", 0⟩ : Row), ⟨"b", 1⟩].take 1)).map Row.content ∧
    (loadData List.reverse (fun _ => [(0 : ℚ), 1]) (some 1)
        [⟨"a", 0⟩, ⟨"b", 1⟩]).corpus_labels
        = (List.reverse ([(⟨"a", 0⟩ : Row), ⟨"b", 1⟩].take 1)).map Row.label ∧
    (loadData List.reverse (fun _ => [(0 : ℚ), 1]) (some 1)
        [⟨"a", 0⟩, ⟨"b", 1⟩]).corpus_embeddings
        = ((loadData List.reverse (fun _ => [(0 : ℚ), 1]) (some 1)
            [⟨"a", 0⟩, ⟨"b", 1⟩]).corpus).map (fun _ => [(0 : ℚ), 1]) ∧
    ∀ e ∈ (loadData List.reverse (fun _ => [(0 : ℚ), 1]) (some 1)
        [⟨"a", 0⟩, ⟨"b", 1⟩]).corpus_embeddings, e.length = 2 :=
  loadData_positive_cap_spec List.reverse (fun _ => [(0 : ℚ), 1]) 2 1
    [⟨"a", 0⟩, ⟨"b", 1⟩] (fun _ => rfl) (by decide)

theorem append_embeds_ne_labels (p : String) :
    p ++ "_embeds.pt" ≠ p ++ "_labels.pt" := by
  intro h
  have h2 : (p ++ "_embeds.pt").data = (p ++ "_labels.pt").data :=
    congrArg String.data h
  rw [String.data_append, String.data_append] at h2
  exact absurd (List.append_cancel_left h2) (by decide)

/-- C7: loading each artifact a save_data call just wrote yields exactly
the tensor built from the saved values — the embeddings matrix back from
file_path + "_embeds.pt" and the labels back from file_path + "_labels.pt",
numerically identical to the arrays that were saved. -/
theorem save_data_roundtrip (st : PipelineState) (p : String) (fs : FileSys) :
    torchLoad (p ++ "_embeds.pt") (save_data st p fs)
        = some (to_torch_tensor (.mat st.corpus_embeddings)) ∧
    torchLoad (p ++ "_labels.pt") (save_data st p fs)
        = some (to_torch_tensor (.ivec st.corpus_labels)) ∧
    (to_torch_tensor (PyData.mat st.corpus_embeddings)).data
        = .mat st.corpus_embeddings ∧
    (to_torch_tensor (PyData.ivec st.corpus_labels)).data
        = .ivec st.corpus_labels := by
  refine ⟨?_, ?_, rfl, rfl⟩
  · simp [save_data, torchSave, torchLoad, append_embeds_ne_labels p]
  · simp [save_data, torchSave, torchLoad]

theorem chunkSizesGo_zero_len (bsz fuel : ℕ) : chunkSizesGo bsz fuel 0 = [] := by
  cases fuel <;> rfl

theorem chunkSizesGo_ne_nil (bsz fuel len : ℕ) (h1 : 0 < len) (h2 : len ≤ fuel) :
    chunkSizesGo bsz fuel len ≠ [] := by
  cases fuel with
  | zero => omega
  | succ f =>
    cases len with
    | zero => omega
    | succ k => simp [chunkSizesGo]

theorem map_length_chunkListGo (bsz : ℕ) :
    ∀ (fuel : ℕ) (l : List α),
    (chunkListGo bsz fuel l).map List.length = chunkSizesGo bsz fuel l.length := by
  intro fuel
  induction fuel with
  | zero => intro l; cases l <;> rfl
  | succ f ih =>
    intro l
    cases l with
    | nil => rfl
    | cons a l =>
      simp [chunkListGo, chunkSizesGo, ih, List.length_take, List.length_drop,
        Nat.add_comm]

theorem chunkSizesGo_sum (bsz : ℕ) :
    ∀ (fuel len : ℕ), len ≤ fuel → (chunkSizesGo bsz fuel len).sum = len := by
  intro fuel
  induction fuel with
  | zero => intro len h; interval_cases len; rfl
  | succ f ih =>
    intro len h
    cases len with
    | zero => rfl
    | succ k =>
      have := ih (k - (bsz - 1)) (by omega)
      simp only [chunkSizesGo, List.sum_cons, this]
      omega

theorem chunkSizesGo_dropLast (bsz : ℕ) (hB : 0 < bsz) :
    ∀ (fuel len : ℕ), len ≤ fuel →
    ∀ s ∈ (chunkSizesGo bsz fuel len).dropLast, s = bsz := by
  intro fuel
  induction fuel with
  | zero => intro len h s hs; interval_cases len; simp [chunkSizesGo] at hs
  | succ f ih =>
    intro len h s hs
    cases len with
    | zero => simp [chunkSizesGo] at hs
    | succ k =>
      simp only [chunkSizesGo] at hs
      by_cases hk : k - (bsz - 1) = 0
      · rw [hk, chunkSizesGo_zero_len] at hs
        simp at hs
      · have hne : chunkSizesGo bsz f (k - (bsz - 1)) ≠ [] :=
          chunkSizesGo_ne_nil bsz f _ (by omega) (by omega)
        rw [List.dropLast_cons_of_ne_nil hne] at hs
        rcases List.mem_cons.mp hs with h1 | h2
        · have : bsz - 1 ≤ k := by omega
          rw [h1]
          omega
        · exact ih (k - (bsz - 1)) (by omega) s h2

theorem getLast?_cons_of_ne_nil {γ : Type} (x : γ) (xs : List γ) (h : xs ≠ []) :
    (x :: xs).getLast? = xs.getLast? := by
  cases xs with
  | nil => exact absurd rfl h
  | cons y l => rfl

theorem chunkSizesGo_getLast? (bsz : ℕ) (hB : 0 < bsz) :
    ∀ (fuel len : ℕ), len ≤ fuel → 0 < len →
    (chunkSizesGo bsz fuel len).getLast? =
      some (if len % bsz = 0 then bsz else len % bsz) := by
  intro fuel
  induction fuel with
  | zero => intro len h1 h2; omega
  | succ f ih =>
    intro len h1 h2
    cases len with
    | zero => omega
    | succ k =>
      simp only [chunkSizesGo]
      by_cases hk : k - (bsz - 1) = 0
      · rw [hk, chunkSizesGo_zero_len]
        have hmin : min (bsz - 1) k = k := by omega
        rw [hmin]
        rcases Nat.lt_or_ge (k + 1) bsz with hlt | hge
        · have h0 : ¬ (k + 1) % bsz = 0 := by rw [Nat.mod_eq_of_lt hlt]; omega
          rw [if_neg h0, Nat.mod_eq_of_lt hlt]
          simp only [List.getLast?_singleton, Option.some.injEq]
          omega
        · have heq : k + 1 = bsz := by omega
          have hz : (k + 1) % bsz = 0 := by rw [heq]; exact Nat.mod_self bsz
          rw [if_pos hz]
          simp only [List.getLast?_singleton, Option.some.injEq]
          omega
      · have hne : chunkSizesGo bsz f (k - (bsz - 1)) ≠ [] :=
          chunkSizesGo_ne_nil bsz f _ (by omega) (by omega)
        rw [getLast?_cons_of_ne_nil _ _ hne, ih _ (by omega) (by omega)]
        have hmod : (k - (bsz - 1)) % bsz = (k + 1) % bsz := by
          have h3 : k + 1 = (k - (bsz - 1)) + bsz := by omega
          rw [h3, Nat.add_mod_right]
        rw [hmod]

/-- C8: over any order of the items of a CustomDataset — DataLoader with
shuffle=True iterates a fresh permutation each epoch — the batches of size
batch_size partition the items: their lengths sum to the dataset length,
every batch but the last has exactly batch_size elements, the last batch
has length mod batch_size elements when that remainder is nonzero, and in
particular with batch_size 32 over 100 items the size profile is always
[32, 32, 32, 4]. -/
theorem batchedDataset_batch_sizes (ds : CustomDataset α β) (bsz : ℕ)
    (hB : 0 < bsz) (items : List (α × β)) (hlen : items.length = lenD ds) :
    ((chunkList bsz items).map List.length).sum = lenD ds ∧
    (∀ s ∈ ((chunkList bsz items).map List.length).dropLast, s = bsz) ∧
    (0 < lenD ds → lenD ds % bsz ≠ 0 →
      ((chunkList bsz items).map List.length).getLast? = some (lenD ds % bsz)) ∧
    (bsz = 32 → lenD ds = 100 →
      (chunkList bsz items).map List.length = [32, 32, 32, 4]) := by
  have hmap : (chunkList bsz items).map List.length
      = chunkSizesGo bsz items.length items.length :=
    map_length_chunkListGo bsz items.length items
  rw [hmap, hlen]
  refine ⟨chunkSizesGo_sum bsz (lenD ds) (lenD ds) le_rfl,
    chunkSizesGo_dropLast bsz hB (lenD ds) (lenD ds) le_rfl, ?_, ?_⟩
  · intro hpos hrem
    rw [chunkSizesGo_getLast? bsz hB (lenD ds) (lenD ds) le_rfl hpos]
    simp [hrem]
  · intro h32 h100
    rw [h32, h100]
    decide

/-- C8 witness: one hundred items batched 32 at a time. -/
theorem batchedDataset_batch_sizes_witness :
    ((chunkList 32 (List.replicate 100 ((0 : ℚ), (0 : ℚ)))).map List.length).sum
        = lenD (⟨List.replicate 100 (0 : ℚ), List.replicate 100 (0 : ℚ)⟩ :
            CustomDataset ℚ ℚ) ∧
    (∀ s ∈ ((chunkList 32 (List.replicate 100 ((0 : ℚ), (0 : ℚ)))).map
        List.length).dropLast, s = 32) ∧
    (0 < lenD (⟨List.replicate 100 (0 : ℚ), List.replicate 100 (0 : ℚ)⟩ :
        CustomDataset ℚ ℚ) →
      lenD (⟨List.replicate 100 (0 : ℚ), List.replicate 100 (0 : ℚ)⟩ :
        CustomDataset ℚ ℚ) % 32 ≠ 0 →
      ((chunkList 32 (List.replicate 100 ((0 : ℚ), (0 : ℚ)))).map
          List.length).getLast?
        = some (lenD (⟨List.replicate 100 (0 : ℚ), List.replicate 100 (0 : ℚ)⟩ :
            CustomDataset ℚ ℚ) % 32)) ∧
    ((32 : ℕ) = 32 →
      lenD (⟨List.replicate 100 (0 : ℚ), List.replicate 100 (0 : ℚ)⟩ :
        CustomDataset ℚ ℚ) = 100 →
      (chunkList 32 (List.replicate 100 ((0 : ℚ), (0 : ℚ)))).map List.length
        = [32, 32, 32, 4]) :=
  batchedDataset_batch_sizes
    (⟨List.replicate 100 (0 : ℚ), List.replicate 100 (0 : ℚ)⟩ : CustomDataset ℚ ℚ)
    32 (by decide) (List.replicate 100 ((0 : ℚ), (0 : ℚ))) (by simp [lenD])

theorem getD_map_of_lt {γ δ : Type} (f : γ → δ) (l : List γ) (dg : γ) (dd : δ) :
    ∀ i < l.length, (l.map f).getD i dd = f (l.getD i dg) := by
  induction l with
  | nil => intro i hi; simp at hi
  | cons a l ih =>
    intro i hi
    cases i with
    | zero => simp
    | succ k =>
      simp only [List.map_cons, List.getD_cons_succ]
      exact ih k (by simpa using hi)


theorem isSortedIdx_head_le (d : List ℚ) :
    ∀ (r : ℕ) (rest : List ℕ), isSortedIdx d (r :: rest) = true →
    ∀ k ∈ r :: rest, d.getD r 0 ≤ d.getD k 0 := by
  intro r rest
  induction rest generalizing r with
  | nil =>
    intro _ k hk
    rw [List.mem_singleton] at hk
    subst hk
    exact le_refl _
  | cons b l ih =>
    intro h k hk
    have hpair : d.getD r 0 ≤ d.getD b 0 ∧ isSortedIdx d (b :: l) = true := by
      simpa [isSortedIdx, Bool.and_eq_true, decide_eq_true_eq] using h
    rcases List.mem_cons.mp hk with h1 | h2
    · subst h1
      exact le_refl _
    · exact hpair.1.trans (ih b hpair.2 k h2)

theorem isSortedIdx_of_pairwise (d : List ℚ) :
    ∀ (l : List ℕ), l.Pairwise (fun a b => d.getD a 0 ≤ d.getD b 0) →
    isSortedIdx d l = true := by
  intro l
  induction l with
  | nil => intro _; rfl
  | cons a l ih =>
    intro h
    obtain ⟨h1, h2⟩ := List.pairwise_cons.mp h
    cases l with
    | nil => rfl
    | cons b l2 =>
      simp only [isSortedIdx, Bool.and_eq_true, decide_eq_true_eq]
      exact ⟨h1 b (by simp), ih h2⟩

theorem argsortIns_spec (d : List ℚ) : isArgsortOf d (argsortIns d) = true := by
  have hperm : (argsortIns d).isPerm (List.range d.length) = true :=
    List.isPerm_iff.mpr (List.perm_insertionSort _ _)
  have hsorted : isSortedIdx d (argsortIns d) = true := by
    apply isSortedIdx_of_pairwise
    haveI : IsTotal ℕ (fun a b => d.getD a 0 ≤ d.getD b 0) :=
      ⟨fun a b => le_total _ _⟩
    haveI : IsTrans ℕ (fun a b => d.getD a 0 ≤ d.getD b 0) :=
      ⟨fun _ _ _ h1 h2 => le_trans h1 h2⟩
    exact List.sorted_insertionSort _ _
  simp only [isArgsortOf, hperm, hsorted, Bool.and_self]

theorem argsortHead_min (d : List ℚ) (perm : List ℕ)
    (h : isArgsortOf d perm = true) (hd : d ≠ []) :
    perm.headD 0 < d.length ∧
    ∀ j < d.length, d.getD (perm.headD 0) 0 ≤ d.getD j 0 := by
  have hand : perm.isPerm (List.range d.length) = true ∧
      isSortedIdx d perm = true := by
    simpa [isArgsortOf, Bool.and_eq_true] using h
  have hperm : perm.Perm (List.range d.length) := List.isPerm_iff.mp hand.1
  have hlen : perm.length = d.length := by simpa using hperm.length_eq
  have hne : perm ≠ [] := by
    intro h0
    rw [h0] at hlen
    exact hd (List.length_eq_zero.mp (by simpa using hlen.symm))
  obtain ⟨r, rest, rfl⟩ := List.exists_cons_of_ne_nil hne
  constructor
  · have hr : r ∈ List.range d.length :=
      hperm.mem_iff.mp (List.mem_cons_self r rest)
    simpa using List.mem_range.mp hr
  · intro j hj
    have hjmem : j ∈ r :: rest := hperm.mem_iff.mpr (List.mem_range.mpr hj)
    simpa using isSortedIdx_head_le d r rest hand.2 j hjmem

/-- C3 counterexample: two identical rows are equidistant from the
centroid, and the permutation [1, 0] satisfies the argsort contract for
that distance list — the default quicksort is free to produce it — yet the
representative it induces is row 1, although row 0 attains the same
minimal distance; so the code does not guarantee that the lowest tied row
index is selected. -/
theorem cluster_representative_tie_not_lowest :
    isArgsortOf (([[(0 : ℚ)], [0]]).map (dist2 [(1 : ℚ)])) [1, 0] = true ∧
    clusterDataCenters (fun _ => [1, 0]) [[(0 : ℚ)], [0]] [[(1 : ℚ)]] = [1] ∧
    dist2 [(1 : ℚ)] (([[(0 : ℚ)], [0]]).getD 1 [])
        = dist2 [(1 : ℚ)] (([[(0 : ℚ)], [0]]).getD 0 []) ∧
    (1 : ℕ) ≠ 0 := by
  have hd : List.map (dist2 [(1 : ℚ)]) [[0], [0]] = [1, 1] := by
    norm_num [dist2]
  refine ⟨?_, rfl, rfl, by decide⟩
  rw [hd]
  decide

/-- C3 (amended): for every argsort meeting the np.argsort contract (a
sorted-order permutation of the row indices; no stability guarantee),
every list of centroids the black-box KMeans fit returns and every
non-empty embeddings matrix, the representative cluster_data stores for
centroid i is a valid row index whose Euclidean distance to the centroid
is minimal over all rows; when several rows attain the minimum, which of
them is chosen is unspecified. -/
theorem cluster_representatives_minimize (argsort : List ℚ → List ℕ)
    (hsort : ∀ d, isArgsortOf d (argsort d) = true)
    (centroids rows : List (List ℚ)) (hrows : rows ≠ [])
    (i : ℕ) (hi : i < centroids.length) :
    (clusterDataCenters argsort rows centroids).getD i 0 < rows.length ∧
    ∀ j < rows.length,
      Real.sqrt ((dist2 (centroids.getD i [])
          (rows.getD ((clusterDataCenters argsort rows centroids).getD i 0) []) : ℚ) : ℝ)
        ≤ Real.sqrt ((dist2 (centroids.getD i []) (rows.getD j []) : ℚ) : ℝ) := by
  have hgc : (clusterDataCenters argsort rows centroids).getD i 0
      = (argsort (rows.map (dist2 (centroids.getD i [])))).headD 0 :=
    getD_map_of_lt (fun c => (argsort (rows.map (dist2 c))).headD 0)
      centroids [] 0 i hi
  have hdne : rows.map (dist2 (centroids.getD i [])) ≠ [] := by
    simpa using hrows
  have hmain := argsortHead_min (rows.map (dist2 (centroids.getD i [])))
    (argsort (rows.map (dist2 (centroids.getD i [])))) (hsort _) hdne
  have hmaplen : (rows.map (dist2 (centroids.getD i []))).length = rows.length :=
    List.length_map rows _
  rw [hmaplen] at hmain
  constructor
  · rw [hgc]
    exact hmain.1
  · intro j hj
    rw [hgc]
    apply Real.sqrt_le_sqrt
    have hle := hmain.2 j hj
    rw [getD_map_of_lt (dist2 (centroids.getD i [])) rows [] 0 j hj,
      getD_map_of_lt (dist2 (centroids.getD i [])) rows [] 0 _ hmain.1] at hle
    exact_mod_cast hle

/-- C3 witness: the contract-satisfying insertion argsort over the two
one-dimensional rows 0 and 1 with the single centroid 1; the representative
is row 1, the unique closest row. -/
theorem cluster_representatives_minimize_witness :
    (clusterDataCenters argsortIns [[(0 : ℚ)], [1]] [[(1 : ℚ)]]).getD 0 0
        < ([[(0 : ℚ)], [1]]).length ∧
    ∀ j < ([[(0 : ℚ)], [1]]).length,
      Real.sqrt ((dist2 (([[(1 : ℚ)]]).getD 0 [])
          (([[(0 : ℚ)], [1]]).getD
            ((clusterDataCenters argsortIns [[(0 : ℚ)], [1]] [[(1 : ℚ)]]).getD 0 0) []) : ℚ) : ℝ)
        ≤ Real.sqrt ((dist2 (([[(1 : ℚ)]]).getD 0 [])
            (([[(0 : ℚ)], [1]]).getD j []) : ℚ) : ℝ) :=
  cluster_representatives_minimize argsortIns argsortIns_spec [[(1 : ℚ)]]
    [[(0 : ℚ)], [1]] (by decide) 0 (by decide)
